import Mathlib

/-!
# Verification of the membuffer encode/decode engine

Shallow embedding of `src/lib.rs` (crate `membuffer`): a writer that
accumulates typed fields into a payload plus a descriptor table, and a reader
that parses the table back and decodes fields lazily.

Modelling conventions:
* A byte buffer is a `List Nat`; every byte produced by the model is `< 256`.
* Rust `i32` values are `Int`s; the 4-byte native-endian representation is
  made explicit (the host is little-endian, matching `NativeEndian` on x86).
* Rust casts are explicit: `as i32` is `i32Cast` / `i32Wrap`, `as usize` is
  `usizeCast` (64-bit target).
* Fallible operations return `PResult`; a Rust panic (a failed `unwrap`, or
  an out-of-bounds slice index) is the dedicated outcome `PResult.crash`,
  distinct from returned `MemBufferError`s.
* `std::collections::HashMap` is modelled as an association list: `mapInsert`
  replaces the value of an existing key in place and appends fresh keys, and
  `mapGet` returns the most recently inserted binding.  (HashMap iteration
  order is unspecified in Rust; the model fixes insertion order, which no
  verified property depends on.)
-/

/-- Normalize an integer into the `i32` range by wrapping modulo `2^32`
(two's complement), as Rust release-mode arithmetic and `as i32` casts do. -/
def i32Wrap (v : Int) : Int :=
  if v % 4294967296 < 2147483648 then v % 4294967296 else v % 4294967296 - 4294967296

/-- Rust `usize as i32` (truncating cast) on a 64-bit target. -/
def i32Cast (n : Nat) : Int := i32Wrap (n : Int)

/-- Rust `i32 as usize` (sign-extend then reinterpret) on a 64-bit target. -/
def usizeCast (v : Int) : Nat := (v % 18446744073709551616).toNat

/-- `v` is representable as an `i32`. -/
def isI32 (v : Int) : Prop := -2147483648 ≤ v ∧ v < 2147483648

instance (v : Int) : Decidable (isI32 v) := by
  unfold isI32; infer_instance

/-- The end-of-table sentinel `0x7AFECAFE` from `MemBufferWriter::finalize`. -/
def sentinelVal : Int := 2063518462

/-- `MemBufferWriter::serialize_i32_to`: the 4 little-endian bytes of an
`i32` (the crate uses the host's native endianness; the host is x86-64). -/
def encodeI32 (v : Int) : List Nat :=
  [(v % 4294967296).toNat % 256,
   (v % 4294967296).toNat / 256 % 256,
   (v % 4294967296).toNat / 65536 % 256,
   (v % 4294967296).toNat / 16777216 % 256]

/-- `MemBufferReader::deserialize_i32_from`: read an `i32` from the first
4 bytes of a buffer (little-endian, two's complement).  Bytes are reduced
mod 256 to keep the model total on arbitrary `List Nat`. -/
def readI32 (l : List Nat) : Int :=
  let u := l.getD 0 0 % 256 + 256 * (l.getD 1 0 % 256) +
           65536 * (l.getD 2 0 % 256) + 16777216 * (l.getD 3 0 % 256)
  if u < 2147483648 then (u : Int) else (u : Int) - 4294967296

/-- The 8 little-endian bytes of a `u64` (encoding side of the raw-pointer
reinterpretation in `impl MemBufferSerialize for &[u64]`). -/
def encodeU64 (x : Nat) : List Nat :=
  [x % 256, x / 256 % 256, x / 65536 % 256, x / 16777216 % 256,
   x / 4294967296 % 256, x / 1099511627776 % 256,
   x / 281474976710656 % 256, x / 72057594037927936 % 256]

/-- Read one `u64` from the first 8 bytes of a buffer (little-endian). -/
def readU64 (l : List Nat) : Nat :=
  l.getD 0 0 % 256 + 256 * (l.getD 1 0 % 256) + 65536 * (l.getD 2 0 % 256) +
  16777216 * (l.getD 3 0 % 256) + 4294967296 * (l.getD 4 0 % 256) +
  1099511627776 * (l.getD 5 0 % 256) + 281474976710656 * (l.getD 6 0 % 256) +
  72057594037927936 * (l.getD 7 0 % 256)

/-- Read `n` consecutive `u64` words, 8 bytes apart, from the start of a
buffer: the model of `std::slice::from_raw_parts(cast_memory, n)`. -/
def readWords : Nat → List Nat → List Nat
  | 0, _ => []
  | n + 1, l => readU64 l :: readWords n (l.drop 8)

theorem encodeI32_length (v : Int) : (encodeI32 v).length = 4 := rfl

theorem encodeU64_length (x : Nat) : (encodeU64 x).length = 8 := rfl

theorem readI32_encodeI32 (v : Int) (hv : isI32 v) (rest : List Nat) :
    readI32 (encodeI32 v ++ rest) = v := by
  obtain ⟨h1, h2⟩ := hv
  simp only [encodeI32, readI32, List.cons_append, List.nil_append,
    List.getD_cons_zero, List.getD_cons_succ]
  omega

theorem encodeI32_append_drop (v : Int) (rest : List Nat) :
    (encodeI32 v ++ rest).drop 4 = rest := by
  simp [encodeI32]

theorem readU64_encodeU64 (x : Nat) (hx : x < 18446744073709551616)
    (rest : List Nat) : readU64 (encodeU64 x ++ rest) = x := by
  simp only [encodeU64, readU64, List.cons_append, List.nil_append,
    List.getD_cons_zero, List.getD_cons_succ]
  omega

theorem encodeU64_append_drop (x : Nat) (rest : List Nat) :
    (encodeU64 x ++ rest).drop 8 = rest := by
  simp [encodeU64]

theorem readWords_encode (ws : List Nat) (hws : ∀ x ∈ ws, x < 18446744073709551616)
    (rest : List Nat) :
    readWords ws.length ((ws.map encodeU64).flatten ++ rest) = ws := by
  induction ws with
  | nil => simp [readWords]
  | cons w tail ih =>
    have hw : w < 18446744073709551616 := hws w (by simp)
    have htail : ∀ x ∈ tail, x < 18446744073709551616 :=
      fun x hx => hws x (by simp [hx])
    simp only [List.map_cons, List.flatten_cons, List.length_cons, readWords,
      List.append_assoc]
    rw [readU64_encodeU64 w hw, encodeU64_append_drop]
    rw [ih htail]

theorem readWords_length (n : Nat) (l : List Nat) :
    (readWords n l).length = n := by
  induction n generalizing l with
  | zero => rfl
  | succ m ih => simp [readWords, ih]

/-- `Position`: a byte range into the payload; for inline types the `offset`
slot stores the value itself (`src/lib.rs` lines 42-45). -/
structure Position where
  offset : Int
  length : Int
deriving DecidableEq, Repr

/-- `InternPosition`: a descriptor — position plus type tag. -/
structure InternPosition where
  pos : Position
  variable_type : Int
deriving DecidableEq, Repr

/-- The built-in type tags, in the order of `enum MemBufferTypes`. -/
def MemBufferTypes.Text : Int := 0

def MemBufferTypes.Integer32 : Int := 1

def MemBufferTypes.VectorU8 : Int := 2

def MemBufferTypes.VectorU64 : Int := 3

def MemBufferTypes.MemBuffer : Int := 4

def MemBufferTypes.LastPreDefienedValue : Int := 5

/-- `enum MemBufferError` (`FieldUnknown` carries a formatted message naming
the key in the source; the model keeps the key itself). -/
inductive MemBufferError where
  | fieldUnknown (key : Int)
  | fieldTypeError (actual requested : Int)
  | wrongFormat
deriving DecidableEq, Repr

/-- Outcome of a fallible Rust computation: a returned value, a returned
`MemBufferError`, or a panic (`crash`). -/
inductive PResult (α : Type) where
  | ok (val : α)
  | err (e : MemBufferError)
  | crash
deriving DecidableEq, Repr

/-- `struct MemBufferWriter`: descriptor map plus the accumulated payload. -/
structure MemBufferWriter where
  offsets : List (Int × InternPosition)
  data : List Nat
deriving DecidableEq, Repr

/-- `struct MemBufferReader`: parsed descriptor map plus the borrowed
payload slice. -/
structure MemBufferReader where
  offsets : List (Int × InternPosition)
  data : List Nat
deriving DecidableEq, Repr

/-- `HashMap::insert`: replace the binding of an existing key in place,
append a fresh key. -/
def mapInsert (m : List (Int × InternPosition)) (k : Int) (v : InternPosition) :
    List (Int × InternPosition) :=
  if m.any (fun p => p.1 == k) then
    m.map (fun p => if p.1 == k then (k, v) else p)
  else m ++ [(k, v)]

/-- `HashMap::get`: the most recently inserted binding for a key. -/
def mapGet : List (Int × InternPosition) → Int → Option InternPosition
  | [], _ => none
  | p :: rest, k =>
    match mapGet rest k with
    | some v => some v
    | none => if p.1 = k then some p.2 else none

/-- The fixed-size wire record of one descriptor, in the field order of
`MemBufferWriter::finalize`: offset, length, type, key. -/
def serializeRecord (k : Int) (ip : InternPosition) : List Nat :=
  encodeI32 ip.pos.offset ++ encodeI32 ip.pos.length ++
  encodeI32 ip.variable_type ++ encodeI32 k

/-- `MemBufferWriter::finalize`: every descriptor record, the sentinel,
then the payload verbatim.  Takes `&self`: a pure function of the writer. -/
def MemBufferWriter.finalize (w : MemBufferWriter) : List Nat :=
  (w.offsets.map (fun p => serializeRecord p.1 p.2)).flatten ++
  encodeI32 sentinelVal ++ w.data

/-- The typed values accepted by `add_entry`: the five built-in codecs.
Text is kept as its UTF-8 bytes (the decoder uses `from_utf8_unchecked`,
so the codec is the identity on bytes). -/
inductive MemVal where
  | text (s : List Nat)
  | int32 (v : Int)
  | vecU8 (b : List Nat)
  | vecU64 (ws : List Nat)
  | nested (w : MemBufferWriter)
deriving DecidableEq, Repr

/-- `get_mem_buffer_type` of each `MemBufferSerialize` impl. -/
def MemVal.tag : MemVal → Int
  | .text _ => MemBufferTypes.Text
  | .int32 _ => MemBufferTypes.Integer32
  | .vecU8 _ => MemBufferTypes.VectorU8
  | .vecU64 _ => MemBufferTypes.VectorU64
  | .nested _ => MemBufferTypes.MemBuffer

/-- `to_mem_buffer`: the encoded payload slice of a value together with the
(possibly updated) position; the `i32` impl stores its value in the
position's offset slot and contributes no payload bytes. -/
def to_mem_buffer : MemVal → Position → List Nat × Position
  | .text s, p => (s, p)
  | .int32 v, p => ([], { p with offset := v })
  | .vecU8 b, p => (b, p)
  | .vecU64 ws, p => ((ws.map encodeU64).flatten, p)
  | .nested w, p => (w.finalize, p)

/-- `MemBufferWriter::new`. -/
def MemBufferWriter.new : MemBufferWriter := ⟨[], []⟩

/-- `MemBufferWriter::add_entry`: record a descriptor at the current payload
end and append the encoded bytes. -/
def MemBufferWriter.add_entry (w : MemBufferWriter) (key : Int) (val : MemVal) :
    MemBufferWriter :=
  let position : Position := ⟨i32Cast w.data.length, 0⟩
  let res := to_mem_buffer val position
  let position2 : Position := { res.2 with length := i32Cast res.1.length }
  { offsets := mapInsert w.offsets key ⟨position2, val.tag⟩,
    data := w.data ++ res.1 }

/-- The header-scanning loop of `MemBufferReader::new`.  Returns the parsed
descriptor records (in scan order) and the payload slice after the sentinel.
`crash` models the panics the loop could in principle hit: `read_i32` on
fewer than 4 bytes, or slicing `[4..]` out of bounds. -/
def parseHeader (l : List Nat) :
    PResult (List (Int × InternPosition) × List Nat) :=
  if l.length < 4 then .crash
  else
    let position_offset := readI32 l
    if position_offset = sentinelVal then .ok ([], l.drop 4)
    else if l.length < 20 then .err .wrongFormat
    else
      let position_length := readI32 (l.drop 4)
      let position_type := readI32 (l.drop 8)
      let key := readI32 (l.drop 12)
      match parseHeader (l.drop 16) with
      | .ok (rest, dat) =>
        .ok ((key, ⟨⟨position_offset, position_length⟩, position_type⟩) :: rest, dat)
      | .err e => .err e
      | .crash => .crash
termination_by l.length
decreasing_by simp; omega

/-- `MemBufferReader::new`: reject buffers shorter than 4 bytes, then scan
the descriptor table up to the sentinel. -/
def MemBufferReader.new (val : List Nat) : PResult MemBufferReader :=
  if val.length < 4 then .err .wrongFormat
  else
    match parseHeader val with
    | .ok (offs, dat) => .ok ⟨offs, dat⟩
    | .err e => .err e
    | .crash => .crash

/-- `MemBufferReader::payload_len`. -/
def MemBufferReader.payload_len (r : MemBufferReader) : Nat := r.data.length

/-- `MemBufferReader::len` (`HashMap::len`: number of distinct keys). -/
def MemBufferReader.len (r : MemBufferReader) : Nat :=
  ((r.offsets.map Prod.fst).eraseDups).length

/-- `impl MemBufferDeserialize for &str`: slice
`mem[offset .. offset+length]` (UTF-8 is not validated, so the decoded
string is just those bytes).  Out-of-range slicing panics in Rust. -/
def strFromMemBuffer (pos : Position) (mem : List Nat) : PResult (List Nat) :=
  let a := usizeCast pos.offset
  let b := usizeCast (i32Wrap (pos.offset + pos.length))
  if a ≤ b ∧ b ≤ mem.length then .ok ((mem.drop a).take (b - a)) else .crash

/-- `impl MemBufferDeserialize for i32`: the value is the offset slot. -/
def i32FromMemBuffer (pos : Position) (_mem : List Nat) : PResult Int :=
  .ok pos.offset

/-- `impl MemBufferDeserialize for &[u8]`: same slicing as text. -/
def u8FromMemBuffer (pos : Position) (mem : List Nat) : PResult (List Nat) :=
  let a := usizeCast pos.offset
  let b := usizeCast (i32Wrap (pos.offset + pos.length))
  if a ≤ b ∧ b ≤ mem.length then .ok ((mem.drop a).take (b - a)) else .crash

/-- `length >> 3` on an `i32` is an arithmetic shift: floor division by 8. -/
def shr3 (v : Int) : Int := if 0 ≤ v then v / 8 else -((-v + 7) / 8)

/-- `impl MemBufferDeserialize for &[u64]`: reinterpret the bytes from
`offset` on as `length >> 3` whole 64-bit words (`from_raw_parts`).  The
outer guard is the `mem[pos.offset..]` slice bound (panic when out of
range); the `from_raw_parts` read of `8 * n` bytes past the end of the
buffer is undefined behavior in the source, modelled conservatively as
`crash` — the model only promises a result for in-bounds word ranges. -/
def u64FromMemBuffer (pos : Position) (mem : List Nat) : PResult (List Nat) :=
  let a := usizeCast pos.offset
  if a ≤ mem.length then
    let n := usizeCast (shr3 pos.length)
    if a + 8 * n ≤ mem.length then .ok (readWords n (mem.drop a))
    else .crash
  else .crash

/-- `impl MemBufferDeserialize for MemBufferReader`: re-run `new` on the
field's byte range. -/
def readerFromMemBuffer (pos : Position) (mem : List Nat) :
    PResult MemBufferReader :=
  let a := usizeCast pos.offset
  let b := usizeCast (i32Wrap (pos.offset + pos.length))
  if a ≤ b ∧ b ≤ mem.length then MemBufferReader.new ((mem.drop a).take (b - a))
  else .crash

/-- `MemBufferReader::intern_load_entry`, generic over the typed decoder:
look the key up, check the type tag, then decode. -/
def MemBufferReader.intern_load_entry {α : Type}
    (r : MemBufferReader) (decode : Position → List Nat → PResult α)
    (key expected_type : Int) : PResult α :=
  match mapGet r.offsets key with
  | some entry =>
    if entry.variable_type ≠ expected_type then
      .err (.fieldTypeError entry.variable_type expected_type)
    else decode entry.pos r.data
  | none => .err (.fieldUnknown key)

/-- `load_entry::<_, &str>`. -/
def MemBufferReader.load_str (r : MemBufferReader) (key : Int) :
    PResult (List Nat) :=
  r.intern_load_entry strFromMemBuffer key MemBufferTypes.Text

/-- `load_entry::<_, i32>`. -/
def MemBufferReader.load_i32 (r : MemBufferReader) (key : Int) : PResult Int :=
  r.intern_load_entry i32FromMemBuffer key MemBufferTypes.Integer32

/-- `load_entry::<_, &[u8]>`. -/
def MemBufferReader.load_u8vec (r : MemBufferReader) (key : Int) :
    PResult (List Nat) :=
  r.intern_load_entry u8FromMemBuffer key MemBufferTypes.VectorU8

/-- `load_entry::<_, &[u64]>`. -/
def MemBufferReader.load_u64vec (r : MemBufferReader) (key : Int) :
    PResult (List Nat) :=
  r.intern_load_entry u64FromMemBuffer key MemBufferTypes.VectorU64

/-- `MemBufferReader::load_recursive_reader`. -/
def MemBufferReader.load_recursive_reader (r : MemBufferReader) (key : Int) :
    PResult MemBufferReader :=
  r.intern_load_entry readerFromMemBuffer key MemBufferTypes.MemBuffer

/-- `MemBufferReader::load_serde_entry`: load the field as text, then run
the external structured-serialization collaborator (`serde_json::from_str`,
modelled as an abstract `parse` function) and `unwrap` its result — a parse
failure is a panic, not a returned error. -/
def MemBufferReader.load_serde_entry {α : Type}
    (r : MemBufferReader) (parse : List Nat → Option α) (key : Int) :
    PResult α :=
  match r.load_str key with
  | .ok s =>
    match parse s with
    | some t => .ok t
    | none => .crash
  | .err e => .err e
  | .crash => .crash

/-- A writer state reachable by a sequence of `add_entry` calls on a fresh
writer. -/
def buildWriter (ops : List (Int × MemVal)) : MemBufferWriter :=
  ops.foldl (fun w p => w.add_entry p.1 p.2) MemBufferWriter.new

/-- The writer method calls, for stating state-mutation properties:
`add_entry` takes `&mut self`, `finalize` takes `&self`. -/
inductive WriterCall where
  | addEntry (k : Int) (v : MemVal)
  | finalizeCall

/-- Execute one writer method call: the successor state, and the returned
buffer if the call was `finalize` (which borrows the writer immutably and
therefore leaves its state untouched). -/
def runWriterCall (w : MemBufferWriter) : WriterCall → MemBufferWriter × Option (List Nat)
  | .addEntry k v => (w.add_entry k v, none)
  | .finalizeCall => (w, some w.finalize)

/-- A descriptor whose serialized record survives the parse loop: all four
fields fit in an `i32` and the offset is not the sentinel. -/
def WFentry (p : Int × InternPosition) : Prop :=
  isI32 p.1 ∧ isI32 p.2.pos.offset ∧ isI32 p.2.pos.length ∧
  isI32 p.2.variable_type ∧ p.2.pos.offset ≠ sentinelVal

instance (p : Int × InternPosition) : Decidable (WFentry p) := by
  unfold WFentry; infer_instance

/-- All of a writer's descriptors are wellformed. -/
def WFWriter (w : MemBufferWriter) : Prop := ∀ p ∈ w.offsets, WFentry p

instance (w : MemBufferWriter) : Decidable (WFWriter w) := by
  unfold WFWriter; infer_instance

theorem sentinelVal_isI32 : isI32 sentinelVal := by decide

/-- Scanning the serialization of a wellformed descriptor table recovers the
table and the payload exactly. -/
theorem parseHeader_serialized (recs : List (Int × InternPosition))
    (dat : List Nat) (h : ∀ p ∈ recs, WFentry p) :
    parseHeader ((recs.map (fun q => serializeRecord q.1 q.2)).flatten ++
      (encodeI32 sentinelVal ++ dat)) = .ok (recs, dat) := by
  induction recs with
  | nil =>
    simp only [List.map_nil, List.flatten_nil, List.nil_append]
    rw [parseHeader]
    simp only [List.length_append, encodeI32_length,
      readI32_encodeI32 sentinelVal sentinelVal_isI32, encodeI32_append_drop]
    simp
  | cons p tail ih =>
    obtain ⟨hk, hoff, hlen, hty, hsent⟩ := h p (by simp)
    have htail : ∀ q ∈ tail, WFentry q := fun q hq => h q (by simp [hq])
    have hstep : (((p :: tail).map (fun q => serializeRecord q.1 q.2)).flatten ++
        (encodeI32 sentinelVal ++ dat)) =
        encodeI32 p.2.pos.offset ++ (encodeI32 p.2.pos.length ++
          (encodeI32 p.2.variable_type ++ (encodeI32 p.1 ++
          ((tail.map (fun q => serializeRecord q.1 q.2)).flatten ++
           (encodeI32 sentinelVal ++ dat))))) := by
      simp [serializeRecord, List.append_assoc]
    rw [hstep]
    have hR4 : 4 ≤ ((tail.map (fun q => serializeRecord q.1 q.2)).flatten ++
        (encodeI32 sentinelVal ++ dat)).length := by
      simp only [List.length_append, encodeI32_length]
      omega
    have hlen16 : (encodeI32 p.2.pos.offset ++ (encodeI32 p.2.pos.length ++
        (encodeI32 p.2.variable_type ++ (encodeI32 p.1 ++
        ((tail.map (fun q => serializeRecord q.1 q.2)).flatten ++
         (encodeI32 sentinelVal ++ dat)))))).length =
        16 + ((tail.map (fun q => serializeRecord q.1 q.2)).flatten ++
         (encodeI32 sentinelVal ++ dat)).length := by
      simp only [List.length_append, encodeI32_length]
      omega
    rw [parseHeader]
    rw [readI32_encodeI32 _ hoff]
    rw [if_neg (by omega), if_neg hsent, if_neg (by omega)]
    rw [encodeI32_append_drop]
    rw [readI32_encodeI32 _ hlen]
    rw [show (8 : Nat) = 4 + 4 from rfl, ← List.drop_drop, encodeI32_append_drop,
      encodeI32_append_drop]
    rw [readI32_encodeI32 _ hty]
    rw [show (12 : Nat) = 4 + (4 + 4) from rfl, ← List.drop_drop, ← List.drop_drop,
      encodeI32_append_drop, encodeI32_append_drop, encodeI32_append_drop]
    rw [readI32_encodeI32 _ hk]
    rw [show (16 : Nat) = 4 + (4 + (4 + 4)) from rfl, ← List.drop_drop,
      ← List.drop_drop, ← List.drop_drop, encodeI32_append_drop,
      encodeI32_append_drop, encodeI32_append_drop, encodeI32_append_drop]
    rw [ih htail]

theorem finalize_length (w : MemBufferWriter) :
    4 ≤ w.finalize.length := by
  simp only [MemBufferWriter.finalize, List.length_append, encodeI32_length]
  omega

/-- Constructing a reader from a wellformed writer's `finalize` output
succeeds and recovers the descriptor table and payload exactly. -/
theorem new_finalize (w : MemBufferWriter) (h : WFWriter w) :
    MemBufferReader.new w.finalize = .ok ⟨w.offsets, w.data⟩ := by
  have hshape : w.finalize =
      (w.offsets.map (fun q => serializeRecord q.1 q.2)).flatten ++
      (encodeI32 sentinelVal ++ w.data) := by
    simp [MemBufferWriter.finalize, List.append_assoc]
  rw [MemBufferReader.new, if_neg (by have := finalize_length w; omega)]
  rw [hshape, parseHeader_serialized w.offsets w.data h]

/-- The scan loop of `MemBufferReader::new` cannot panic on a buffer of at
least 4 bytes: every 4-byte read and the final `[4..]` slice are in bounds. -/
theorem parseHeader_no_crash :
    ∀ n (l : List Nat), l.length ≤ n → 4 ≤ l.length →
      (∃ x, parseHeader l = .ok x) ∨ parseHeader l = .err .wrongFormat := by
  intro n
  induction n with
  | zero => intro l h1 h2; omega
  | succ m ih =>
    intro l h1 h2
    rw [parseHeader]
    rw [if_neg (by omega)]
    by_cases hs : readI32 l = sentinelVal
    · rw [if_pos hs]
      exact Or.inl ⟨_, rfl⟩
    · rw [if_neg hs]
      by_cases h20 : l.length < 20
      · rw [if_pos h20]
        exact Or.inr rfl
      · rw [if_neg h20]
        have hdrop : (l.drop 16).length ≤ m := by
          simp only [List.length_drop]; omega
        have hdrop4 : 4 ≤ (l.drop 16).length := by
          simp only [List.length_drop]; omega
        rcases ih (l.drop 16) hdrop hdrop4 with ⟨⟨rest, dat⟩, hok⟩ | herr
        · rw [hok]; exact Or.inl ⟨_, rfl⟩
        · rw [herr]; exact Or.inr rfl

theorem i32Cast_small (n : Nat) (h : n < 2147483648) : i32Cast n = n := by
  unfold i32Cast i32Wrap
  omega

theorem i32Wrap_small (v : Int) (h0 : 0 ≤ v) (h : v < 2147483648) :
    i32Wrap v = v := by
  unfold i32Wrap
  omega

theorem usizeCast_small (v : Int) (h0 : 0 ≤ v) (h : v < 2147483648) :
    usizeCast v = v.toNat := by
  unfold usizeCast
  omega

theorem mapGet_eq_none (m : List (Int × InternPosition)) (k : Int)
    (h : ∀ p ∈ m, p.1 ≠ k) : mapGet m k = none := by
  induction m with
  | nil => rfl
  | cons q rest ih =>
    have hq : q.1 ≠ k := h q (by simp)
    have hrest : ∀ p ∈ rest, p.1 ≠ k := fun p hp => h p (by simp [hp])
    simp [mapGet, ih hrest, hq]

theorem mapGet_some_mem (m : List (Int × InternPosition)) (k : Int)
    (ip : InternPosition) (h : mapGet m k = some ip) : (k, ip) ∈ m := by
  induction m with
  | nil => simp [mapGet] at h
  | cons q rest ih =>
    simp only [mapGet] at h
    cases hrest : mapGet rest k with
    | some v =>
      rw [hrest] at h
      simp at h
      exact List.mem_cons_of_mem _ (ih (by rw [hrest, h]))
    | none =>
      rw [hrest] at h
      simp only [] at h
      by_cases hq : q.1 = k
      · rw [if_pos hq] at h
        simp only [Option.some.injEq] at h
        cases q with
        | mk a b =>
          have heq : (a, b) = (k, ip) := by
            rw [Prod.mk.injEq]
            exact ⟨hq, h⟩
          rw [heq]
          exact List.mem_cons_self _ _
      · rw [if_neg hq] at h
        simp at h

theorem mapGet_append_single_self (m : List (Int × InternPosition)) (k : Int)
    (ip : InternPosition) : mapGet (m ++ [(k, ip)]) k = some ip := by
  induction m with
  | nil => simp [mapGet]
  | cons q rest ih => simp [mapGet, ih]

theorem mapGet_append_single_ne (m : List (Int × InternPosition)) (k kx : Int)
    (ip : InternPosition) (hne : k ≠ kx) :
    mapGet (m ++ [(kx, ip)]) k = mapGet m k := by
  induction m with
  | nil =>
    have hnx : ¬(kx = k) := fun hcontra => hne hcontra.symm
    simp [mapGet, hnx]
  | cons q rest ih => simp [mapGet, ih]

theorem map_replace_id (m : List (Int × InternPosition)) (k : Int)
    (ip : InternPosition) (h : ∀ p ∈ m, p.1 ≠ k) :
    m.map (fun p => if p.1 == k then (k, ip) else p) = m := by
  induction m with
  | nil => rfl
  | cons q rest ih =>
    have hq : (q.1 == k) = false := by
      simp only [beq_eq_false_iff_ne]; exact h q (by simp)
    simp only [List.map_cons]
    rw [if_neg (by simp [hq]), ih (fun p hp => h p (by simp [hp]))]

theorem mapGet_map_replace_ne (m : List (Int × InternPosition))
    (k kx : Int) (ip : InternPosition) (hne : k ≠ kx) :
    mapGet (m.map (fun p => if p.1 == kx then (kx, ip) else p)) k =
      mapGet m k := by
  induction m with
  | nil => rfl
  | cons q rest ih =>
    simp only [List.map_cons, mapGet, ih]
    cases hmg : mapGet rest k with
    | some v => rfl
    | none =>
      by_cases hq : q.1 == kx
      · have hq1 : q.1 = kx := by simpa using hq
        rw [if_pos hq]
        have h1 : ¬(kx = k) := fun hcontra => hne hcontra.symm
        have h2 : ¬(q.1 = k) := by rw [hq1]; exact h1
        simp [h1, h2]
      · rw [if_neg hq]

theorem mapGet_mapInsert_self (m : List (Int × InternPosition)) (k : Int)
    (ip : InternPosition) : mapGet (mapInsert m k ip) k = some ip := by
  unfold mapInsert
  by_cases hany : m.any (fun p => p.1 == k)
  · rw [if_pos hany]
    induction m with
    | nil => simp at hany
    | cons q rest ih =>
      simp only [List.any_cons, Bool.or_eq_true] at hany
      by_cases hrest : rest.any (fun p => p.1 == k)
      · simp only [List.map_cons, mapGet, ih hrest]
      · have hnone : ∀ p ∈ rest, p.1 ≠ k := by
          intro p hp hcontra
          apply hrest
          simp only [List.any_eq_true]
          exact ⟨p, hp, by simp [hcontra]⟩
        have hq : (q.1 == k) = true := by
          rcases hany with h1 | h1
          · exact h1
          · exact absurd h1 hrest
        simp only [List.map_cons]
        rw [map_replace_id rest k ip hnone]
        simp [mapGet, hq, mapGet_eq_none rest k hnone]
  · rw [if_neg hany]
    exact mapGet_append_single_self m k ip

theorem mapGet_mapInsert_ne (m : List (Int × InternPosition)) (k kx : Int)
    (ip : InternPosition) (hne : k ≠ kx) :
    mapGet (mapInsert m kx ip) k = mapGet m k := by
  unfold mapInsert
  by_cases hany : m.any (fun p => p.1 == kx)
  · rw [if_pos hany]
    exact mapGet_map_replace_ne m k kx ip hne
  · rw [if_neg hany]
    exact mapGet_append_single_ne m k kx ip hne

theorem mem_mapInsert (m : List (Int × InternPosition)) (k : Int)
    (ip : InternPosition) (q : Int × InternPosition)
    (h : q ∈ mapInsert m k ip) : q = (k, ip) ∨ q ∈ m := by
  unfold mapInsert at h
  by_cases hany : m.any (fun p => p.1 == k)
  · rw [if_pos hany] at h
    rcases List.mem_map.mp h with ⟨p, hp, hq⟩
    by_cases hpk : p.1 == k
    · left; rw [← hq, if_pos hpk]
    · right; rw [← hq, if_neg hpk]; exact hp
  · rw [if_neg hany] at h
    rcases List.mem_append.mp h with h1 | h1
    · right; exact h1
    · left; simpa using h1

theorem keys_mapInsert_nodup (m : List (Int × InternPosition)) (k : Int)
    (ip : InternPosition) (h : (m.map Prod.fst).Nodup) :
    ((mapInsert m k ip).map Prod.fst).Nodup := by
  unfold mapInsert
  by_cases hany : m.any (fun p => p.1 == k)
  · rw [if_pos hany]
    have hkeys : (m.map (fun p => if p.1 == k then (k, ip) else p)).map Prod.fst =
        m.map Prod.fst := by
      rw [List.map_map]
      apply List.map_congr_left
      intro p _
      by_cases hpk : p.1 = k
      · simp [Function.comp_apply, hpk]
      · simp [Function.comp_apply, hpk]
    rw [hkeys]; exact h
  · rw [if_neg hany]
    have hnk : k ∉ m.map Prod.fst := by
      intro hcontra
      apply hany
      rcases List.mem_map.mp hcontra with ⟨p, hp, hpk⟩
      simp only [List.any_eq_true]
      exact ⟨p, hp, by simp [hpk]⟩
    rw [List.map_append]
    rw [List.nodup_append]
    refine ⟨h, by simp, ?_⟩
    intro a ha hmem
    simp only [List.map_cons, List.map_nil, List.mem_singleton] at hmem
    rw [hmem] at ha
    exact hnk ha

/-- The payload bytes a value contributes (the slice returned by its
`to_mem_buffer`). -/
def MemVal.payloadBytes : MemVal → List Nat
  | .text s => s
  | .int32 _ => []
  | .vecU8 b => b
  | .vecU64 ws => (ws.map encodeU64).flatten
  | .nested w => w.finalize

/-- The descriptor `add_entry` records for a value when the payload already
holds `dlen` bytes. -/
def entryDescr (dlen : Nat) : MemVal → InternPosition
  | .text s => ⟨⟨i32Cast dlen, i32Cast s.length⟩, MemBufferTypes.Text⟩
  | .int32 n => ⟨⟨n, i32Cast 0⟩, MemBufferTypes.Integer32⟩
  | .vecU8 b => ⟨⟨i32Cast dlen, i32Cast b.length⟩, MemBufferTypes.VectorU8⟩
  | .vecU64 ws =>
    ⟨⟨i32Cast dlen, i32Cast ((ws.map encodeU64).flatten).length⟩,
      MemBufferTypes.VectorU64⟩
  | .nested w => ⟨⟨i32Cast dlen, i32Cast w.finalize.length⟩, MemBufferTypes.MemBuffer⟩

set_option maxRecDepth 4000 in
theorem add_entry_eq (w : MemBufferWriter) (k : Int) (v : MemVal) :
    w.add_entry k v =
      ⟨mapInsert w.offsets k (entryDescr w.data.length v),
       w.data ++ v.payloadBytes⟩ := by
  cases v <;>
    simp [MemBufferWriter.add_entry, to_mem_buffer, entryDescr,
      MemVal.payloadBytes, MemVal.tag]

/-- Type-level sanity of a value, free in Rust: an `i32` fits in 32 bits,
`u64` words fit in 64 bits. -/
def ValSane : MemVal → Prop
  | .int32 v => isI32 v
  | .vecU64 ws => ∀ x ∈ ws, x < 18446744073709551616
  | _ => True

instance : DecidablePred ValSane := by
  intro v; cases v <;> (unfold ValSane; infer_instance)

/-- The value does not smuggle the sentinel into the offset slot (only an
inline `i32` can). -/
def ValNoSentinel : MemVal → Prop
  | .int32 v => v ≠ sentinelVal
  | _ => True

instance : DecidablePred ValNoSentinel := by
  intro v; cases v <;> (unfold ValNoSentinel; infer_instance)

/-- A nested value carries a wellformed inner writer (needed for the inner
finalize to parse back). -/
def ValNestedWF : MemVal → Prop
  | .nested w2 => WFWriter w2
  | _ => True

instance : DecidablePred ValNestedWF := by
  intro v; cases v <;> (unfold ValNestedWF; infer_instance)

/-- The descriptor `ip` stores value `v` inside payload `data`: the right
tag, in-bounds offsets, and the encoded bytes of `v` at the recorded range.
This is the invariant `add_entry` establishes and later calls preserve. -/
def EntryVal (ip : InternPosition) (data : List Nat) : MemVal → Prop
  | .text s => ip.variable_type = MemBufferTypes.Text ∧
      0 ≤ ip.pos.offset ∧ ip.pos.length = (s.length : Int) ∧
      ip.pos.offset.toNat + s.length ≤ data.length ∧
      ip.pos.offset.toNat + s.length < 2147483648 ∧
      (data.drop ip.pos.offset.toNat).take s.length = s
  | .int32 v => ip.variable_type = MemBufferTypes.Integer32 ∧
      ip.pos.offset = v ∧ ip.pos.length = 0
  | .vecU8 b => ip.variable_type = MemBufferTypes.VectorU8 ∧
      0 ≤ ip.pos.offset ∧ ip.pos.length = (b.length : Int) ∧
      ip.pos.offset.toNat + b.length ≤ data.length ∧
      ip.pos.offset.toNat + b.length < 2147483648 ∧
      (data.drop ip.pos.offset.toNat).take b.length = b
  | .vecU64 ws => ip.variable_type = MemBufferTypes.VectorU64 ∧
      0 ≤ ip.pos.offset ∧ ip.pos.length = (8 * ws.length : Nat) ∧
      ip.pos.offset.toNat + 8 * ws.length ≤ data.length ∧
      ip.pos.offset.toNat + 8 * ws.length < 2147483648 ∧
      (data.drop ip.pos.offset.toNat).take (8 * ws.length) =
        (ws.map encodeU64).flatten ∧
      (∀ x ∈ ws, x < 18446744073709551616)
  | .nested w2 => ip.variable_type = MemBufferTypes.MemBuffer ∧
      0 ≤ ip.pos.offset ∧ ip.pos.length = (w2.finalize.length : Int) ∧
      ip.pos.offset.toNat + w2.finalize.length ≤ data.length ∧
      ip.pos.offset.toNat + w2.finalize.length < 2147483648 ∧
      (data.drop ip.pos.offset.toNat).take w2.finalize.length = w2.finalize ∧
      WFWriter w2

theorem slice_append_stable (data ext : List Nat) (a n : Nat)
    (h : a + n ≤ data.length) :
    ((data ++ ext).drop a).take n = (data.drop a).take n := by
  rw [List.drop_append_of_le_length (by omega)]
  rw [List.take_append_of_le_length (by simp [List.length_drop]; omega)]

/-- `EntryVal` is stable under appending more payload bytes. -/
theorem EntryVal_mono (ip : InternPosition) (data ext : List Nat) (v : MemVal)
    (h : EntryVal ip data v) : EntryVal ip (data ++ ext) v := by
  cases v with
  | text s =>
    obtain ⟨h1, h2, h3, h4, h5, h6⟩ := h
    exact ⟨h1, h2, h3, by simp [List.length_append]; omega, h5,
      by rw [slice_append_stable data ext _ _ h4]; exact h6⟩
  | int32 n => exact h
  | vecU8 b =>
    obtain ⟨h1, h2, h3, h4, h5, h6⟩ := h
    exact ⟨h1, h2, h3, by simp [List.length_append]; omega, h5,
      by rw [slice_append_stable data ext _ _ h4]; exact h6⟩
  | vecU64 ws =>
    obtain ⟨h1, h2, h3, h4, h5, h6, h7⟩ := h
    exact ⟨h1, h2, h3, by simp [List.length_append]; omega, h5,
      by rw [slice_append_stable data ext _ _ h4]; exact h6, h7⟩
  | nested w2 =>
    obtain ⟨h1, h2, h3, h4, h5, h6, h7⟩ := h
    exact ⟨h1, h2, h3, by simp [List.length_append]; omega, h5,
      by rw [slice_append_stable data ext _ _ h4]; exact h6, h7⟩

theorem flatten_encodeU64_length (ws : List Nat) :
    ((ws.map encodeU64).flatten).length = 8 * ws.length := by
  induction ws with
  | nil => rfl
  | cons w tail ih =>
    simp only [List.map_cons, List.flatten_cons, List.length_append,
      encodeU64_length, ih, List.length_cons]
    omega

theorem EntryVal_load_text (ip : InternPosition) (data : List Nat)
    (s : List Nat) (h : EntryVal ip data (.text s)) :
    strFromMemBuffer ip.pos data = .ok s := by
  obtain ⟨h1, h2, h3, h4, h5, h6⟩ := h
  have ha : usizeCast ip.pos.offset = ip.pos.offset.toNat :=
    usizeCast_small _ h2 (by omega)
  have hwrap : i32Wrap (ip.pos.offset + ip.pos.length) =
      ip.pos.offset + ip.pos.length :=
    i32Wrap_small _ (by omega) (by omega)
  have hb : usizeCast (i32Wrap (ip.pos.offset + ip.pos.length)) =
      ip.pos.offset.toNat + s.length := by
    rw [hwrap, h3, usizeCast_small _ (by omega) (by omega)]
    omega
  simp only [strFromMemBuffer, ha, hb]
  rw [if_pos ⟨by omega, h4⟩]
  have hsub : ip.pos.offset.toNat + s.length - ip.pos.offset.toNat = s.length := by
    omega
  rw [hsub, h6]

theorem EntryVal_load_i32 (ip : InternPosition) (data : List Nat)
    (v : Int) (h : EntryVal ip data (.int32 v)) :
    i32FromMemBuffer ip.pos data = .ok v := by
  obtain ⟨h1, h2, h3⟩ := h
  simp only [i32FromMemBuffer, h2]

theorem EntryVal_load_u8 (ip : InternPosition) (data : List Nat)
    (b : List Nat) (h : EntryVal ip data (.vecU8 b)) :
    u8FromMemBuffer ip.pos data = .ok b := by
  obtain ⟨h1, h2, h3, h4, h5, h6⟩ := h
  have ha : usizeCast ip.pos.offset = ip.pos.offset.toNat :=
    usizeCast_small _ h2 (by omega)
  have hwrap : i32Wrap (ip.pos.offset + ip.pos.length) =
      ip.pos.offset + ip.pos.length :=
    i32Wrap_small _ (by omega) (by omega)
  have hb : usizeCast (i32Wrap (ip.pos.offset + ip.pos.length)) =
      ip.pos.offset.toNat + b.length := by
    rw [hwrap, h3, usizeCast_small _ (by omega) (by omega)]
    omega
  simp only [u8FromMemBuffer, ha, hb]
  rw [if_pos ⟨by omega, h4⟩]
  have hsub : ip.pos.offset.toNat + b.length - ip.pos.offset.toNat = b.length := by
    omega
  rw [hsub, h6]

theorem EntryVal_load_u64 (ip : InternPosition) (data : List Nat)
    (ws : List Nat) (h : EntryVal ip data (.vecU64 ws)) :
    u64FromMemBuffer ip.pos data = .ok ws := by
  obtain ⟨h1, h2, h3, h4, h5, h6, h7⟩ := h
  have ha : usizeCast ip.pos.offset = ip.pos.offset.toNat :=
    usizeCast_small _ h2 (by omega)
  have hshr : shr3 ip.pos.length = (ws.length : Int) := by
    rw [h3]
    unfold shr3
    rw [if_pos (by omega)]
    omega
  have hn : usizeCast (shr3 ip.pos.length) = ws.length := by
    rw [hshr, usizeCast_small _ (by omega) (by omega)]
    omega
  simp only [u64FromMemBuffer, ha, hn]
  rw [if_pos (by omega), if_pos (by omega)]
  have hsplit : data.drop ip.pos.offset.toNat =
      (ws.map encodeU64).flatten ++
      (data.drop ip.pos.offset.toNat).drop (8 * ws.length) := by
    rw [← h6]
    exact (List.take_append_drop _ _).symm
  rw [hsplit, readWords_encode ws h7]

theorem EntryVal_load_nested (ip : InternPosition) (data : List Nat)
    (w2 : MemBufferWriter) (h : EntryVal ip data (.nested w2)) :
    readerFromMemBuffer ip.pos data = .ok ⟨w2.offsets, w2.data⟩ := by
  obtain ⟨h1, h2, h3, h4, h5, h6, h7⟩ := h
  have ha : usizeCast ip.pos.offset = ip.pos.offset.toNat :=
    usizeCast_small _ h2 (by omega)
  have hwrap : i32Wrap (ip.pos.offset + ip.pos.length) =
      ip.pos.offset + ip.pos.length :=
    i32Wrap_small _ (by omega) (by omega)
  have hb : usizeCast (i32Wrap (ip.pos.offset + ip.pos.length)) =
      ip.pos.offset.toNat + w2.finalize.length := by
    rw [hwrap, h3, usizeCast_small _ (by omega) (by omega)]
    omega
  simp only [readerFromMemBuffer, ha, hb]
  rw [if_pos ⟨by omega, h4⟩]
  have hsub : ip.pos.offset.toNat + w2.finalize.length - ip.pos.offset.toNat =
      w2.finalize.length := by omega
  rw [hsub, h6, new_finalize w2 h7]

theorem drop_append_self (data s : List Nat) :
    ((data ++ s).drop data.length).take s.length = s := by
  rw [List.drop_append_of_le_length (le_refl _), List.drop_length,
    List.nil_append, List.take_length]

theorem i32Cast_zero : i32Cast 0 = 0 := i32Cast_small 0 (by norm_num)

/-- `add_entry` establishes the storage invariant for the value it adds. -/
theorem EntryVal_add_entry (w : MemBufferWriter) (v : MemVal)
    (hsane : ValSane v) (hnested : ValNestedWF v)
    (hsize : w.data.length + v.payloadBytes.length < 2147483648) :
    EntryVal (entryDescr w.data.length v) (w.data ++ v.payloadBytes) v := by
  have hdlen : w.data.length < 2147483648 := by omega
  cases v with
  | text s =>
    simp only [MemVal.payloadBytes] at hsize
    simp only [EntryVal, entryDescr, MemVal.payloadBytes]
    have htn : (i32Cast w.data.length).toNat = w.data.length := by
      rw [i32Cast_small _ hdlen]; omega
    refine ⟨trivial, ?_, ?_, ?_, ?_, ?_⟩
    · rw [i32Cast_small _ hdlen]; exact Int.natCast_nonneg _
    · rw [i32Cast_small s.length (by omega)]
    · rw [htn]; simp only [List.length_append]; omega
    · rw [htn]; omega
    · rw [htn]; exact drop_append_self w.data s
  | int32 n =>
    simp only [EntryVal, entryDescr, MemVal.payloadBytes]
    exact ⟨trivial, trivial, i32Cast_zero⟩
  | vecU8 b =>
    simp only [MemVal.payloadBytes] at hsize
    simp only [EntryVal, entryDescr, MemVal.payloadBytes]
    have htn : (i32Cast w.data.length).toNat = w.data.length := by
      rw [i32Cast_small _ hdlen]; omega
    refine ⟨trivial, ?_, ?_, ?_, ?_, ?_⟩
    · rw [i32Cast_small _ hdlen]; exact Int.natCast_nonneg _
    · rw [i32Cast_small b.length (by omega)]
    · rw [htn]; simp only [List.length_append]; omega
    · rw [htn]; omega
    · rw [htn]; exact drop_append_self w.data b
  | vecU64 ws =>
    simp only [MemVal.payloadBytes] at hsize
    simp only [EntryVal, entryDescr, MemVal.payloadBytes]
    rw [flatten_encodeU64_length] at hsize
    have htn : (i32Cast w.data.length).toNat = w.data.length := by
      rw [i32Cast_small _ hdlen]; omega
    refine ⟨trivial, ?_, ?_, ?_, ?_, ?_, hsane⟩
    · rw [i32Cast_small _ hdlen]; exact Int.natCast_nonneg _
    · rw [flatten_encodeU64_length, i32Cast_small (8 * ws.length) (by omega)]
    · rw [htn]; simp only [List.length_append, flatten_encodeU64_length]; omega
    · rw [htn]; omega
    · rw [htn]
      have hds := drop_append_self w.data ((ws.map encodeU64).flatten)
      rw [flatten_encodeU64_length] at hds
      exact hds
  | nested w2 =>
    simp only [MemVal.payloadBytes] at hsize
    simp only [EntryVal, entryDescr, MemVal.payloadBytes]
    have htn : (i32Cast w.data.length).toNat = w.data.length := by
      rw [i32Cast_small _ hdlen]; omega
    refine ⟨trivial, ?_, ?_, ?_, ?_, ?_, hnested⟩
    · rw [i32Cast_small _ hdlen]; exact Int.natCast_nonneg _
    · rw [i32Cast_small w2.finalize.length (by omega)]
    · rw [htn]; simp only [List.length_append]; omega
    · rw [htn]; omega
    · rw [htn]; exact drop_append_self w.data w2.finalize

/-- The descriptor `add_entry` records is wellformed whenever the payload
stays below the sentinel value. -/
theorem WFentry_entryDescr (w : MemBufferWriter) (k : Int) (v : MemVal)
    (hk : isI32 k) (hsane : ValSane v) (hns : ValNoSentinel v)
    (hsize : w.data.length + v.payloadBytes.length < 2063518462) :
    WFentry (k, entryDescr w.data.length v) := by
  have hdlen : w.data.length < 2063518462 := by omega
  have hcast : i32Cast w.data.length = (w.data.length : Int) :=
    i32Cast_small _ (by omega)
  cases v with
  | text s =>
    simp only [MemVal.payloadBytes] at hsize
    simp only [WFentry, entryDescr]
    refine ⟨hk, ?_, ?_, by decide, ?_⟩
    · rw [hcast]; constructor <;> omega
    · rw [i32Cast_small s.length (by omega)]; constructor <;> omega
    · rw [hcast]; simp only [sentinelVal]; omega
  | int32 n =>
    simp only [WFentry, entryDescr]
    exact ⟨hk, hsane, by rw [i32Cast_zero]; constructor <;> omega, by decide, hns⟩
  | vecU8 b =>
    simp only [MemVal.payloadBytes] at hsize
    simp only [WFentry, entryDescr]
    refine ⟨hk, ?_, ?_, by decide, ?_⟩
    · rw [hcast]; constructor <;> omega
    · rw [i32Cast_small b.length (by omega)]; constructor <;> omega
    · rw [hcast]; simp only [sentinelVal]; omega
  | vecU64 ws =>
    simp only [MemVal.payloadBytes] at hsize
    simp only [WFentry, entryDescr]
    refine ⟨hk, ?_, ?_, by decide, ?_⟩
    · rw [hcast]; constructor <;> omega
    · rw [i32Cast_small ((ws.map encodeU64).flatten).length (by omega)]; constructor <;> omega
    · rw [hcast]; simp only [sentinelVal]; omega
  | nested w2 =>
    simp only [MemVal.payloadBytes] at hsize
    simp only [WFentry, entryDescr]
    refine ⟨hk, ?_, ?_, by decide, ?_⟩
    · rw [hcast]; constructor <;> omega
    · rw [i32Cast_small w2.finalize.length (by omega)]; constructor <;> omega
    · rw [hcast]; simp only [sentinelVal]; omega

theorem foldl_data_ext (ops : List (Int × MemVal)) (w : MemBufferWriter) :
    ∃ ext, (ops.foldl (fun w p => w.add_entry p.1 p.2) w).data = w.data ++ ext := by
  induction ops generalizing w with
  | nil => exact ⟨[], by simp⟩
  | cons p rest ih =>
    simp only [List.foldl_cons]
    rcases ih (w.add_entry p.1 p.2) with ⟨ext1, hext⟩
    have hstep : (w.add_entry p.1 p.2).data = w.data ++ p.2.payloadBytes := by
      rw [add_entry_eq]
    refine ⟨p.2.payloadBytes ++ ext1, ?_⟩
    rw [hext, hstep, List.append_assoc]

theorem foldl_data_le (ops : List (Int × MemVal)) (w : MemBufferWriter) :
    w.data.length ≤ (ops.foldl (fun w p => w.add_entry p.1 p.2) w).data.length := by
  rcases foldl_data_ext ops w with ⟨ext, h⟩
  rw [h]
  simp

theorem foldl_mapGet_untouched (ops : List (Int × MemVal)) (w : MemBufferWriter)
    (k : Int) (h : ∀ p ∈ ops, p.1 ≠ k) :
    mapGet (ops.foldl (fun w p => w.add_entry p.1 p.2) w).offsets k =
      mapGet w.offsets k := by
  induction ops generalizing w with
  | nil => rfl
  | cons p rest ih =>
    simp only [List.foldl_cons]
    rw [ih (w.add_entry p.1 p.2) (fun q hq => h q (by simp [hq]))]
    rw [add_entry_eq]
    exact mapGet_mapInsert_ne _ _ _ _ (fun hc => h p (by simp) hc.symm)

theorem foldl_keys_nodup (ops : List (Int × MemVal)) (w : MemBufferWriter)
    (h : (w.offsets.map Prod.fst).Nodup) :
    ((ops.foldl (fun w p => w.add_entry p.1 p.2) w).offsets.map Prod.fst).Nodup := by
  induction ops generalizing w with
  | nil => exact h
  | cons p rest ih =>
    simp only [List.foldl_cons]
    apply ih
    rw [add_entry_eq]
    exact keys_mapInsert_nodup _ _ _ h

/-- Every descriptor of a writer built by `add_entry` calls over sane values
is wellformed, as long as the payload stays below the sentinel value. -/
theorem foldl_WF (ops : List (Int × MemVal)) (w : MemBufferWriter)
    (hW : WFWriter w)
    (hsane : ∀ p ∈ ops, ValSane p.2) (hns : ∀ p ∈ ops, ValNoSentinel p.2)
    (hkeys : ∀ p ∈ ops, isI32 p.1)
    (hsize : (ops.foldl (fun w p => w.add_entry p.1 p.2) w).data.length < 2063518462) :
    WFWriter (ops.foldl (fun w p => w.add_entry p.1 p.2) w) := by
  induction ops generalizing w with
  | nil => exact hW
  | cons p rest ih =>
    simp only [List.foldl_cons] at hsize ⊢
    have hle := foldl_data_le rest (w.add_entry p.1 p.2)
    have hstep : (w.add_entry p.1 p.2).data = w.data ++ p.2.payloadBytes := by
      rw [add_entry_eq]
    have hsz : w.data.length + p.2.payloadBytes.length < 2063518462 := by
      rw [hstep] at hle
      simp only [List.length_append] at hle
      omega
    have hW' : WFWriter (w.add_entry p.1 p.2) := by
      intro q hq
      rw [add_entry_eq] at hq
      simp only at hq
      rcases mem_mapInsert _ _ _ _ hq with h1 | h1
      · rw [h1]
        exact WFentry_entryDescr w p.1 p.2 (hkeys p (by simp))
          (hsane p (by simp)) (hns p (by simp)) hsz
      · exact hW q h1
    exact ih (w.add_entry p.1 p.2) hW'
      (fun q hq => hsane q (by simp [hq]))
      (fun q hq => hns q (by simp [hq]))
      (fun q hq => hkeys q (by simp [hq])) hsize

/-- Each value added under a fresh key can be found again in the final
writer state, with its bytes intact. -/
theorem foldl_entries (ops : List (Int × MemVal)) (w : MemBufferWriter)
    (hsane : ∀ p ∈ ops, ValSane p.2) (hnested : ∀ p ∈ ops, ValNestedWF p.2)
    (hnodup : (ops.map Prod.fst).Nodup)
    (hsize : (ops.foldl (fun w p => w.add_entry p.1 p.2) w).data.length < 2147483648) :
    ∀ p ∈ ops, ∃ ip,
      mapGet (ops.foldl (fun w p => w.add_entry p.1 p.2) w).offsets p.1 = some ip ∧
      EntryVal ip (ops.foldl (fun w p => w.add_entry p.1 p.2) w).data p.2 := by
  induction ops generalizing w with
  | nil => intro p hp; simp at hp
  | cons q rest ih =>
    intro p hp
    simp only [List.foldl_cons] at hsize ⊢
    have hle := foldl_data_le rest (w.add_entry q.1 q.2)
    have hstep : (w.add_entry q.1 q.2).data = w.data ++ q.2.payloadBytes := by
      rw [add_entry_eq]
    have hsz : w.data.length + q.2.payloadBytes.length < 2147483648 := by
      rw [hstep] at hle
      simp only [List.length_append] at hle
      omega
    rcases List.mem_cons.mp hp with h1 | h1
    · subst h1
      have hfresh : ∀ r ∈ rest, r.1 ≠ p.1 := by
        intro r hr hcontra
        simp only [List.map_cons, List.nodup_cons] at hnodup
        exact hnodup.1 (List.mem_map.mpr ⟨r, hr, hcontra⟩)
      refine ⟨entryDescr w.data.length p.2, ?_, ?_⟩
      · rw [foldl_mapGet_untouched rest _ _ hfresh, add_entry_eq]
        exact mapGet_mapInsert_self _ _ _
      · rcases foldl_data_ext rest (w.add_entry p.1 p.2) with ⟨ext, hext⟩
        rw [hext, hstep]
        exact EntryVal_mono _ _ _ _
          (EntryVal_add_entry w p.2 (hsane p (by simp)) (hnested p (by simp)) hsz)
    · exact ih (w.add_entry q.1 q.2)
        (fun r hr => hsane r (by simp [hr]))
        (fun r hr => hnested r (by simp [hr]))
        (by simp only [List.map_cons, List.nodup_cons] at hnodup; exact hnodup.2)
        hsize p h1

theorem EntryVal_tag (ip : InternPosition) (data : List Nat) (v : MemVal)
    (h : EntryVal ip data v) : ip.variable_type = v.tag := by
  cases v <;> exact h.1

/-- The typed `load_entry` of the matching type returns exactly the value
that was written (for nested writers: a reader over the inner table and
payload). -/
def loadsBack (r : MemBufferReader) (k : Int) : MemVal → Prop
  | .text s => r.load_str k = .ok s
  | .int32 v => r.load_i32 k = .ok v
  | .vecU8 b => r.load_u8vec k = .ok b
  | .vecU64 ws => r.load_u64vec k = .ok ws
  | .nested w2 => r.load_recursive_reader k = .ok ⟨w2.offsets, w2.data⟩

theorem loadsBack_of_entry (r : MemBufferReader) (k : Int) (v : MemVal)
    (ip : InternPosition) (hget : mapGet r.offsets k = some ip)
    (hev : EntryVal ip r.data v) : loadsBack r k v := by
  have htag := EntryVal_tag ip r.data v hev
  cases v with
  | text s =>
    simp only [loadsBack, MemBufferReader.load_str,
      MemBufferReader.intern_load_entry, hget]
    rw [if_neg (by rw [htag]; simp [MemVal.tag])]
    exact EntryVal_load_text ip r.data s hev
  | int32 n =>
    simp only [loadsBack, MemBufferReader.load_i32,
      MemBufferReader.intern_load_entry, hget]
    rw [if_neg (by rw [htag]; simp [MemVal.tag])]
    exact EntryVal_load_i32 ip r.data n hev
  | vecU8 b =>
    simp only [loadsBack, MemBufferReader.load_u8vec,
      MemBufferReader.intern_load_entry, hget]
    rw [if_neg (by rw [htag]; simp [MemVal.tag])]
    exact EntryVal_load_u8 ip r.data b hev
  | vecU64 ws =>
    simp only [loadsBack, MemBufferReader.load_u64vec,
      MemBufferReader.intern_load_entry, hget]
    rw [if_neg (by rw [htag]; simp [MemVal.tag])]
    exact EntryVal_load_u64 ip r.data ws hev
  | nested w2 =>
    simp only [loadsBack, MemBufferReader.load_recursive_reader,
      MemBufferReader.intern_load_entry, hget]
    rw [if_neg (by rw [htag]; simp [MemVal.tag])]
    exact EntryVal_load_nested ip r.data w2 hev

theorem WFWriter_new : WFWriter MemBufferWriter.new := by
  intro p hp
  simp [MemBufferWriter.new] at hp

/-- Wellformedness of any writer reachable from `MemBufferWriter::new`. -/
theorem buildWriter_WF (ops : List (Int × MemVal))
    (hsane : ∀ p ∈ ops, ValSane p.2) (hns : ∀ p ∈ ops, ValNoSentinel p.2)
    (hkeys : ∀ p ∈ ops, isI32 p.1)
    (hsize : (buildWriter ops).data.length < 2063518462) :
    WFWriter (buildWriter ops) := by
  unfold buildWriter at hsize ⊢
  exact foldl_WF ops MemBufferWriter.new WFWriter_new hsane hns hkeys hsize

/-- C1 (amended): round-trip.  For every sequence of typed entries added
under distinct keys, provided no Integer32 value equals the sentinel
`0x7AFECAFE`, all keys are `i32`s, nested writers are wellformed, and the
total payload stays below `0x7AFECAFE` bytes, constructing a Reader from
`finalize()` succeeds and `load_entry` with the matching type returns the
value that was written, for each key independently of lookup order. -/
theorem roundTrip_amended (ops : List (Int × MemVal))
    (hnodup : (ops.map Prod.fst).Nodup)
    (hkeys : ∀ p ∈ ops, isI32 p.1)
    (hsane : ∀ p ∈ ops, ValSane p.2)
    (hns : ∀ p ∈ ops, ValNoSentinel p.2)
    (hnested : ∀ p ∈ ops, ValNestedWF p.2)
    (hsize : (buildWriter ops).data.length < 2063518462)
    (k : Int) (v : MemVal) (hmem : (k, v) ∈ ops) :
    ∃ r, MemBufferReader.new (buildWriter ops).finalize = .ok r ∧
      loadsBack r k v := by
  have hWF := buildWriter_WF ops hsane hns hkeys hsize
  have hsize2 : ((ops.foldl (fun w p => w.add_entry p.1 p.2)
      MemBufferWriter.new).data.length) < 2147483648 := by
    unfold buildWriter at hsize
    omega
  have hent := foldl_entries ops MemBufferWriter.new hsane hnested hnodup
    hsize2 (k, v) hmem
  rcases hent with ⟨ip, hget, hev⟩
  refine ⟨⟨(buildWriter ops).offsets, (buildWriter ops).data⟩,
    new_finalize _ hWF, ?_⟩
  exact loadsBack_of_entry _ k v ip hget hev

/-- C1 (counterexample): adding the single entry `(0, 0x7AFECAFE : i32)` —
distinct keys, a supported type — makes `finalize` emit the sentinel as the
first descriptor's offset field, so the Reader parses an empty table
(construction still succeeds) and `load_entry::<i32>(0)` returns
`FieldUnknown` instead of the written value.  The claim as stated is false. -/
theorem roundTrip_counterexample :
    MemBufferReader.new (buildWriter [(0, MemVal.int32 2063518462)]).finalize =
      .ok ⟨[], [0, 0, 0, 0, 1, 0, 0, 0, 0, 0, 0, 0, 254, 202, 254, 122]⟩ ∧
    MemBufferReader.load_i32
      ⟨[], [0, 0, 0, 0, 1, 0, 0, 0, 0, 0, 0, 0, 254, 202, 254, 122]⟩ 0 =
      .err (.fieldUnknown 0) := by
  constructor
  · have hbuf : (buildWriter [(0, MemVal.int32 2063518462)]).finalize =
        encodeI32 sentinelVal ++
        [0, 0, 0, 0, 1, 0, 0, 0, 0, 0, 0, 0, 254, 202, 254, 122] := by decide
    have hparse := parseHeader_serialized []
      [0, 0, 0, 0, 1, 0, 0, 0, 0, 0, 0, 0, 254, 202, 254, 122]
      (by intro p hp; simp at hp)
    simp only [List.map_nil, List.flatten_nil, List.nil_append] at hparse
    rw [hbuf, MemBufferReader.new, if_neg (by simp [encodeI32]), hparse]
  · decide

/-- C1 (witness): a concrete five-entry sequence covering all supported
types round-trips through the amended theorem. -/
theorem roundTrip_amended_witness :
    ∃ r, MemBufferReader.new (buildWriter
      [(0, MemVal.text [72, 105]), (1, MemVal.int32 (-5)),
       (2, MemVal.vecU8 [9, 200]), (3, MemVal.vecU64 [300]),
       (4, MemVal.nested (buildWriter [(7, MemVal.text [88])]))]).finalize =
      .ok r ∧ loadsBack r 3 (MemVal.vecU64 [300]) :=
  roundTrip_amended
    [(0, MemVal.text [72, 105]), (1, MemVal.int32 (-5)),
     (2, MemVal.vecU8 [9, 200]), (3, MemVal.vecU64 [300]),
     (4, MemVal.nested (buildWriter [(7, MemVal.text [88])]))]
    (by decide) (by decide) (by decide) (by decide) (by decide) (by decide)
    3 (MemVal.vecU64 [300]) (by decide)

/-- If no aligned scan position (multiples of 16 bytes, where the loop
reads each record's offset field) holds the sentinel within the buffer,
the scan loop fails with `WrongFormat`: the table runs past the end of the
buffer before the sentinel is found. -/
theorem parseHeader_no_sentinel :
    ∀ n (l : List Nat), l.length ≤ n → 4 ≤ l.length →
      (∀ k, 16 * k + 4 ≤ l.length → readI32 (l.drop (16 * k)) ≠ sentinelVal) →
      parseHeader l = .err .wrongFormat := by
  intro n
  induction n with
  | zero => intro l h1 h2 _; omega
  | succ m ih =>
    intro l h1 h2 hns
    rw [parseHeader]
    rw [if_neg (by omega)]
    have h0 : readI32 l ≠ sentinelVal := by
      have := hns 0 (by omega)
      simpa using this
    rw [if_neg h0]
    by_cases h20 : l.length < 20
    · rw [if_pos h20]
    · rw [if_neg h20]
      have hrec : parseHeader (l.drop 16) = .err .wrongFormat := by
        apply ih (l.drop 16)
        · simp only [List.length_drop]; omega
        · simp only [List.length_drop]; omega
        · intro k hk
          simp only [List.length_drop] at hk
          rw [List.drop_drop]
          have h16 : 16 + 16 * k = 16 * (k + 1) := by ring
          rw [h16]
          exact hns (k + 1) (by omega)
      rw [hrec]

/-- C3: `MemBufferReader::new` rejects buffers shorter than 4 bytes with
`WrongFormat` (MalformedHeader); when the descriptor table runs past the
end of the buffer before the sentinel is found (no 16-byte-aligned scan
position holds the sentinel), it also returns `WrongFormat`; and on every
input it returns either a Reader or the `WrongFormat` error — never a
panic: the internal 4-byte reads and the final `[4..]` payload slice are
always in bounds. -/
theorem reader_new_total (val : List Nat) :
    (val.length < 4 → MemBufferReader.new val = .err .wrongFormat) ∧
    ((∀ k, 16 * k + 4 ≤ val.length →
        readI32 (val.drop (16 * k)) ≠ sentinelVal) →
      MemBufferReader.new val = .err .wrongFormat) ∧
    ((∃ r, MemBufferReader.new val = .ok r) ∨
      MemBufferReader.new val = .err .wrongFormat) := by
  refine ⟨?_, ?_, ?_⟩
  · intro h
    rw [MemBufferReader.new, if_pos h]
  · intro hns
    by_cases h4 : val.length < 4
    · rw [MemBufferReader.new, if_pos h4]
    · rw [MemBufferReader.new, if_neg h4]
      rw [parseHeader_no_sentinel val.length val (le_refl _) (by omega) hns]
  · by_cases h4 : val.length < 4
    · right
      rw [MemBufferReader.new, if_pos h4]
    · rw [MemBufferReader.new, if_neg h4]
      rcases parseHeader_no_crash val.length val (le_refl _) (by omega) with
        ⟨⟨offs, dat⟩, hok⟩ | herr
      · left
        rw [hok]
        exact ⟨_, rfl⟩
      · right
        rw [herr]

/-- C3 (witness): a 1-byte buffer is rejected with `WrongFormat`, and so is
a 12-byte buffer cut mid-record before any sentinel. -/
theorem reader_new_total_witness :
    MemBufferReader.new [0] = .err .wrongFormat ∧
    MemBufferReader.new [1, 0, 0, 0, 0, 0, 0, 0, 0, 0, 0, 0] =
      .err .wrongFormat ∧
    ((∃ r, MemBufferReader.new [0] = .ok r) ∨
      MemBufferReader.new [0] = .err .wrongFormat) :=
  ⟨(reader_new_total [0]).1 (by decide),
   (reader_new_total [1, 0, 0, 0, 0, 0, 0, 0, 0, 0, 0, 0]).2.1
     (by intro k hk
         simp only [List.length_cons, List.length_nil] at hk
         have hk0 : k = 0 := by omega
         subst hk0
         decide),
   (reader_new_total [0]).2.2⟩

/-- C4 (amended): in every writer state reachable by `add_entry` calls whose
Integer32 values differ from `0x7AFECAFE` (and fit in an `i32`), with `i32`
keys and total payload below `0x7AFECAFE` bytes, no descriptor's offset
field equals the sentinel. -/
theorem no_sentinel_offset_amended (ops : List (Int × MemVal))
    (hsane : ∀ p ∈ ops, ValSane p.2) (hns : ∀ p ∈ ops, ValNoSentinel p.2)
    (hkeys : ∀ p ∈ ops, isI32 p.1)
    (hsize : (buildWriter ops).data.length < 2063518462) :
    ∀ p ∈ (buildWriter ops).offsets, p.2.pos.offset ≠ sentinelVal := by
  intro p hp
  exact (buildWriter_WF ops hsane hns hkeys hsize p hp).2.2.2.2

/-- C4 (counterexample): the inline Integer32 entry with value `0x7AFECAFE`
stores the sentinel in its descriptor's offset slot, and `finalize`
serializes it as the first 4 bytes — identical to the sentinel encoding.
The claimed invariant is false for inline Integer32 entries. -/
theorem no_sentinel_offset_counterexample :
    (MemBufferWriter.new.add_entry 0 (MemVal.int32 2063518462)).offsets =
      [(0, ⟨⟨2063518462, 0⟩, 1⟩)] ∧
    (⟨⟨2063518462, 0⟩, 1⟩ : InternPosition).pos.offset = sentinelVal ∧
    (MemBufferWriter.new.add_entry 0 (MemVal.int32 2063518462)).finalize.take 4 =
      encodeI32 sentinelVal := by
  refine ⟨by decide, by decide, by decide⟩

/-- C4 (witness): a reachable two-entry writer with an ordinary Integer32
value has no sentinel-valued offset field. -/
theorem no_sentinel_offset_witness :
    ((buildWriter [(0, MemVal.text [1]), (1, MemVal.int32 7)]).offsets.all
      (fun p => p.2.pos.offset != sentinelVal)) = true := by
  have h := no_sentinel_offset_amended
    [(0, MemVal.text [1]), (1, MemVal.int32 7)]
    (by decide) (by decide) (by decide) (by decide)
  rw [List.all_eq_true]
  intro p hp
  simpa using h p hp

/-- The sum of the length fields of a descriptor table. -/
def descLenSum (m : List (Int × InternPosition)) : Int :=
  (m.map (fun p => p.2.pos.length)).sum

theorem entryDescr_length (dlen : Nat) (v : MemVal)
    (h : v.payloadBytes.length < 2147483648) :
    (entryDescr dlen v).pos.length = (v.payloadBytes.length : Int) := by
  cases v with
  | text s =>
    simp only [MemVal.payloadBytes] at h ⊢
    simp only [entryDescr]
    exact i32Cast_small s.length h
  | int32 n =>
    simp only [MemVal.payloadBytes, entryDescr, List.length_nil,
      Nat.cast_zero, i32Cast_zero]
  | vecU8 b =>
    simp only [MemVal.payloadBytes] at h ⊢
    simp only [entryDescr]
    exact i32Cast_small b.length h
  | vecU64 ws =>
    simp only [MemVal.payloadBytes] at h ⊢
    simp only [entryDescr]
    exact i32Cast_small _ h
  | nested w2 =>
    simp only [MemVal.payloadBytes] at h ⊢
    simp only [entryDescr]
    exact i32Cast_small _ h

theorem descLenSum_append_single (m : List (Int × InternPosition))
    (q : Int × InternPosition) :
    descLenSum (m ++ [q]) = descLenSum m + q.2.pos.length := by
  simp [descLenSum]

/-- When all keys are fresh, every `add_entry` grows the payload by exactly
the new descriptor's length field, so the sum of length fields tracks the
payload length. -/
theorem foldl_descLenSum (ops : List (Int × MemVal)) (w : MemBufferWriter)
    (hbase : descLenSum w.offsets = (w.data.length : Int))
    (hfresh : ∀ p ∈ ops, p.1 ∉ w.offsets.map Prod.fst)
    (hnodup : (ops.map Prod.fst).Nodup)
    (hsize : (ops.foldl (fun w p => w.add_entry p.1 p.2) w).data.length < 2147483648) :
    descLenSum (ops.foldl (fun w p => w.add_entry p.1 p.2) w).offsets =
      (((ops.foldl (fun w p => w.add_entry p.1 p.2) w).data.length : Nat) : Int) := by
  induction ops generalizing w with
  | nil => exact hbase
  | cons q rest ih =>
    simp only [List.foldl_cons] at hsize ⊢
    have hle := foldl_data_le rest (w.add_entry q.1 q.2)
    have hstep : w.add_entry q.1 q.2 =
        ⟨mapInsert w.offsets q.1 (entryDescr w.data.length q.2),
         w.data ++ q.2.payloadBytes⟩ := add_entry_eq w q.1 q.2
    have hdata : (w.add_entry q.1 q.2).data = w.data ++ q.2.payloadBytes := by
      rw [hstep]
    have hsz : q.2.payloadBytes.length < 2147483648 := by
      rw [hdata] at hle
      simp only [List.length_append] at hle
      omega
    have hnotany : ¬(w.offsets.any (fun p => p.1 == q.1) = true) := by
      intro hc
      rcases List.any_eq_true.mp hc with ⟨p, hp, hpk⟩
      exact hfresh q (by simp)
        (List.mem_map.mpr ⟨p, hp, by simpa using hpk⟩)
    have hins : mapInsert w.offsets q.1 (entryDescr w.data.length q.2) =
        w.offsets ++ [(q.1, entryDescr w.data.length q.2)] := by
      unfold mapInsert
      rw [if_neg hnotany]
    apply ih
    · rw [hstep, hins]
      simp only [descLenSum_append_single, hbase,
        entryDescr_length w.data.length q.2 hsz, List.length_append]
      push_cast
      ring
    · intro p hp
      rw [hstep, hins]
      simp only [List.map_append, List.map_cons, List.map_nil]
      intro hc
      rcases List.mem_append.mp hc with h1 | h1
      · exact hfresh p (by simp [hp]) h1
      · simp only [List.mem_singleton] at h1
        simp only [List.map_cons, List.nodup_cons] at hnodup
        exact hnodup.1 (h1 ▸ List.mem_map.mpr ⟨p, hp, rfl⟩)
    · simp only [List.map_cons, List.nodup_cons] at hnodup
      exact hnodup.2
    · exact hsize

/-- C5 (amended): for writer states built with pairwise-distinct keys (and
the wellformedness bounds), the Reader over `finalize()` reconstructs the
table, and its `payload_len()` equals the sum of the descriptor length
fields. -/
theorem payload_len_amended (ops : List (Int × MemVal))
    (hnodup : (ops.map Prod.fst).Nodup)
    (hkeys : ∀ p ∈ ops, isI32 p.1)
    (hsane : ∀ p ∈ ops, ValSane p.2)
    (hns : ∀ p ∈ ops, ValNoSentinel p.2)
    (hsize : (buildWriter ops).data.length < 2063518462) :
    MemBufferReader.new (buildWriter ops).finalize =
      .ok ⟨(buildWriter ops).offsets, (buildWriter ops).data⟩ ∧
    (MemBufferReader.payload_len
        ⟨(buildWriter ops).offsets, (buildWriter ops).data⟩ : Int) =
      descLenSum (buildWriter ops).offsets := by
  refine ⟨new_finalize _ (buildWriter_WF ops hsane hns hkeys hsize), ?_⟩
  have hsum := foldl_descLenSum ops MemBufferWriter.new (by rfl)
    (by intro p hp; simp [MemBufferWriter.new])
    hnodup (by unfold buildWriter at hsize; omega)
  unfold buildWriter
  rw [hsum]
  rfl

/-- C5 (counterexample): two `add_entry` calls with the same key leave the
replaced entry's bytes in the payload; the reader's `payload_len()` is 4
while the single surviving descriptor's length field sums to 2.  The claim,
which includes repeated keys, is false. -/
theorem payload_len_counterexample :
    MemBufferReader.new
      (buildWriter [(0, MemVal.text [97, 98]), (0, MemVal.text [99, 100])]).finalize =
      .ok ⟨[(0, ⟨⟨2, 2⟩, 0⟩)], [97, 98, 99, 100]⟩ ∧
    (MemBufferReader.payload_len ⟨[(0, ⟨⟨2, 2⟩, 0⟩)], [97, 98, 99, 100]⟩ : Int) = 4 ∧
    descLenSum [(0, ⟨⟨2, 2⟩, 0⟩)] = 2 ∧
    (4 : Int) ≠ 2 := by
  have hW : buildWriter [(0, MemVal.text [97, 98]), (0, MemVal.text [99, 100])] =
      ⟨[(0, ⟨⟨2, 2⟩, 0⟩)], [97, 98, 99, 100]⟩ := by decide
  refine ⟨?_, by decide, by decide, by decide⟩
  rw [hW]
  exact new_finalize _ (by decide)

/-- C5 (witness): two distinct-key text entries give payload length 3 equal
to the descriptor length sum. -/
theorem payload_len_amended_witness :
    MemBufferReader.new
      (buildWriter [(0, MemVal.text [97]), (1, MemVal.text [98, 99])]).finalize =
      .ok ⟨(buildWriter [(0, MemVal.text [97]), (1, MemVal.text [98, 99])]).offsets,
           (buildWriter [(0, MemVal.text [97]), (1, MemVal.text [98, 99])]).data⟩ ∧
    (MemBufferReader.payload_len
        ⟨(buildWriter [(0, MemVal.text [97]), (1, MemVal.text [98, 99])]).offsets,
         (buildWriter [(0, MemVal.text [97]), (1, MemVal.text [98, 99])]).data⟩ : Int) =
      descLenSum (buildWriter [(0, MemVal.text [97]), (1, MemVal.text [98, 99])]).offsets :=
  payload_len_amended [(0, MemVal.text [97]), (1, MemVal.text [98, 99])]
    (by decide) (by decide) (by decide) (by decide) (by decide)

/-- C2 (amended): `load_serde_entry` loads the field as text and hands it to
the structured-serialization collaborator; a successful parse is returned as
`ok`, but a parse failure makes the call panic (`unwrap`) rather than
return a decode error. -/
theorem load_serde_amended {α : Type} (r : MemBufferReader) (k : Int)
    (parse : List Nat → Option α) (s : List Nat)
    (hstr : r.load_str k = .ok s) :
    (∀ t, parse s = some t → r.load_serde_entry parse k = .ok t) ∧
    (parse s = none → r.load_serde_entry parse k = .crash) := by
  constructor
  · intro t hp
    simp only [MemBufferReader.load_serde_entry, hstr, hp]
  · intro hp
    simp only [MemBufferReader.load_serde_entry, hstr, hp]

/-- C2 (counterexample): on a buffer holding the text field `"A"` under key
0, a collaborator that fails to parse makes `load_serde_entry` panic
(`crash`), not return an error — the claim that the parse failure is
surfaced as a decode error is false. -/
theorem load_serde_counterexample :
    MemBufferReader.load_str ⟨[(0, ⟨⟨0, 1⟩, 0⟩)], [65]⟩ 0 = .ok [65] ∧
    MemBufferReader.load_serde_entry ⟨[(0, ⟨⟨0, 1⟩, 0⟩)], [65]⟩
      (fun _ => (none : Option Nat)) 0 = .crash := by
  constructor
  · decide
  · decide

/-- C2 (witness): a successful parse is returned as `ok`, a failing parse
panics, on the concrete one-field buffer. -/
theorem load_serde_amended_witness :
    MemBufferReader.load_serde_entry ⟨[(0, ⟨⟨0, 1⟩, 0⟩)], [65]⟩
      (fun l => if l = [65] then some 42 else none) 0 = .ok 42 ∧
    MemBufferReader.load_serde_entry ⟨[(0, ⟨⟨0, 1⟩, 0⟩)], [65]⟩
      (fun _ => (none : Option Nat)) 0 = .crash :=
  ⟨(load_serde_amended ⟨[(0, ⟨⟨0, 1⟩, 0⟩)], [65]⟩ 0
      (fun l => if l = [65] then some 42 else none) [65] (by decide)).1 42 (by decide),
   (load_serde_amended ⟨[(0, ⟨⟨0, 1⟩, 0⟩)], [65]⟩ 0
      (fun _ => (none : Option Nat)) [65] (by decide)).2 (by decide)⟩

/-- C6 (amended): last write wins on duplicate keys.  After two `add_entry`
calls with the same key (on any reachable prior state), provided no
Integer32 value among the entries equals the sentinel `0x7AFECAFE` (all
values in range, `i32` keys, payload below `0x7AFECAFE` bytes), the Reader
over `finalize()` holds exactly one descriptor for that key, and the typed
load returns the value written last. -/
theorem last_write_wins (ops : List (Int × MemVal)) (k : Int) (v1 v2 : MemVal)
    (hkeys : ∀ p ∈ ops ++ [(k, v1), (k, v2)], isI32 p.1)
    (hsane : ∀ p ∈ ops ++ [(k, v1), (k, v2)], ValSane p.2)
    (hns : ∀ p ∈ ops ++ [(k, v1), (k, v2)], ValNoSentinel p.2)
    (hnested2 : ValNestedWF v2)
    (hsize : (buildWriter (ops ++ [(k, v1), (k, v2)])).data.length < 2063518462) :
    ∃ r, MemBufferReader.new
        (buildWriter (ops ++ [(k, v1), (k, v2)])).finalize = .ok r ∧
      (r.offsets.map Prod.fst).count k = 1 ∧ loadsBack r k v2 := by
  have hWF := buildWriter_WF (ops ++ [(k, v1), (k, v2)]) hsane hns hkeys hsize
  have hsplit : ops ++ [(k, v1), (k, v2)] = (ops ++ [(k, v1)]) ++ [(k, v2)] := by
    simp
  have hWeq : buildWriter (ops ++ [(k, v1), (k, v2)]) =
      [(k, v2)].foldl (fun w p => w.add_entry p.1 p.2)
        ((ops ++ [(k, v1)]).foldl (fun w p => w.add_entry p.1 p.2)
          MemBufferWriter.new) := by
    unfold buildWriter
    rw [hsplit, List.foldl_append]
  have hsize2 : ([(k, v2)].foldl (fun w p => w.add_entry p.1 p.2)
      ((ops ++ [(k, v1)]).foldl (fun w p => w.add_entry p.1 p.2)
        MemBufferWriter.new)).data.length < 2147483648 := by
    rw [← hWeq]
    omega
  have hent := foldl_entries [(k, v2)]
    ((ops ++ [(k, v1)]).foldl (fun w p => w.add_entry p.1 p.2)
      MemBufferWriter.new)
    (by intro p hp
        simp only [List.mem_singleton] at hp
        subst hp
        exact hsane (k, v2) (by simp))
    (by intro p hp
        simp only [List.mem_singleton] at hp
        subst hp
        exact hnested2)
    (by simp) hsize2 (k, v2) (by simp)
  rcases hent with ⟨ip, hget, hev⟩
  rw [← hWeq] at hget hev
  refine ⟨⟨(buildWriter (ops ++ [(k, v1), (k, v2)])).offsets,
    (buildWriter (ops ++ [(k, v1), (k, v2)])).data⟩,
    new_finalize _ hWF, ?_, ?_⟩
  · have hnodup : ((buildWriter (ops ++ [(k, v1), (k, v2)])).offsets.map
        Prod.fst).Nodup := by
      unfold buildWriter
      exact foldl_keys_nodup _ MemBufferWriter.new (by simp [MemBufferWriter.new])
    have hmem : (k, ip) ∈ (buildWriter (ops ++ [(k, v1), (k, v2)])).offsets :=
      mapGet_some_mem _ _ _ hget
    exact List.count_eq_one_of_mem hnodup
      (List.mem_map.mpr ⟨(k, ip), hmem, rfl⟩)
  · exact loadsBack_of_entry _ k v2 ip hget hev

/-- C6 (counterexample): if the value written last is the Integer32
`0x7AFECAFE`, the replaced descriptor's offset slot holds the sentinel, so
the Reader over `finalize()` parses an *empty* table: it has zero
descriptors for the key — not exactly one — and the load returns
`FieldUnknown`, not the value written last.  The claim as frozen, which
covers every pair of same-key writes, is false. -/
theorem last_write_wins_counterexample :
    MemBufferReader.new
      (buildWriter [(0, MemVal.text [97]),
        (0, MemVal.int32 2063518462)]).finalize =
      .ok ⟨[], [0, 0, 0, 0, 1, 0, 0, 0, 0, 0, 0, 0, 254, 202, 254, 122, 97]⟩ ∧
    ((⟨[], [0, 0, 0, 0, 1, 0, 0, 0, 0, 0, 0, 0, 254, 202, 254, 122, 97]⟩ :
        MemBufferReader).offsets.map Prod.fst).count 0 = 0 ∧
    MemBufferReader.load_i32
      ⟨[], [0, 0, 0, 0, 1, 0, 0, 0, 0, 0, 0, 0, 254, 202, 254, 122, 97]⟩ 0 =
      .err (.fieldUnknown 0) := by
  refine ⟨?_, by decide, by decide⟩
  have hbuf : (buildWriter [(0, MemVal.text [97]),
      (0, MemVal.int32 2063518462)]).finalize =
      encodeI32 sentinelVal ++
      [0, 0, 0, 0, 1, 0, 0, 0, 0, 0, 0, 0, 254, 202, 254, 122, 97] := by
    decide
  have hparse := parseHeader_serialized []
    [0, 0, 0, 0, 1, 0, 0, 0, 0, 0, 0, 0, 254, 202, 254, 122, 97]
    (by intro p hp; simp at hp)
  simp only [List.map_nil, List.flatten_nil, List.nil_append] at hparse
  rw [hbuf, MemBufferReader.new, if_neg (by simp [encodeI32]), hparse]

/-- C6 (witness): writing text then an integer under key 0 leaves one
descriptor for key 0 and the integer is what loads back. -/
theorem last_write_wins_witness :
    ∃ r, MemBufferReader.new
        (buildWriter ([(5, MemVal.text [1])] ++
          [(0, MemVal.text [2]), (0, MemVal.int32 9)])).finalize = .ok r ∧
      (r.offsets.map Prod.fst).count 0 = 1 ∧ loadsBack r 0 (MemVal.int32 9) :=
  last_write_wins [(5, MemVal.text [1])] 0 (MemVal.text [2]) (MemVal.int32 9)
    (by decide) (by decide) (by decide) (by decide) (by decide)

/-- C7: `finalize` takes `&self`: executing the `finalize` method call
leaves the writer's descriptor table and payload unchanged, and a repeated
call on the resulting state returns a byte-identical buffer. -/
theorem finalize_readonly_idempotent (w : MemBufferWriter) :
    (runWriterCall w .finalizeCall).1.offsets = w.offsets ∧
    (runWriterCall w .finalizeCall).1.data = w.data ∧
    (runWriterCall (runWriterCall w .finalizeCall).1 .finalizeCall).2 =
      (runWriterCall w .finalizeCall).2 :=
  ⟨rfl, rfl, rfl⟩

/-- C8: when a key's descriptor exists but its type tag differs from the
requested one, the load fails with `FieldTypeError(actual, requested)`,
carrying both tags. -/
theorem type_mismatch_both_tags {α : Type}
    (decode : Position → List Nat → PResult α) (r : MemBufferReader)
    (key expected : Int) (ip : InternPosition)
    (hget : mapGet r.offsets key = some ip)
    (hne : ip.variable_type ≠ expected) :
    r.intern_load_entry decode key expected =
      .err (.fieldTypeError ip.variable_type expected) := by
  simp only [MemBufferReader.intern_load_entry, hget]
  rw [if_pos hne]

/-- C8 (witness): a Text field read as Integer32 yields
`FieldTypeError(Text, Integer32)`, and an Integer32 field read as Text
yields `FieldTypeError(Integer32, Text)`. -/
theorem type_mismatch_both_tags_witness :
    MemBufferReader.load_i32 ⟨[(0, ⟨⟨0, 5⟩, 0⟩)], [69, 97, 114, 116, 104]⟩ 0 =
      .err (.fieldTypeError 0 1) ∧
    MemBufferReader.load_str ⟨[(0, ⟨⟨7, 0⟩, 1⟩)], []⟩ 0 =
      .err (.fieldTypeError 1 0) :=
  ⟨type_mismatch_both_tags i32FromMemBuffer
      ⟨[(0, ⟨⟨0, 5⟩, 0⟩)], [69, 97, 114, 116, 104]⟩ 0 MemBufferTypes.Integer32
      ⟨⟨0, 5⟩, 0⟩ (by decide) (by decide),
   type_mismatch_both_tags strFromMemBuffer
      ⟨[(0, ⟨⟨7, 0⟩, 1⟩)], []⟩ 0 MemBufferTypes.Text
      ⟨⟨7, 0⟩, 1⟩ (by decide) (by decide)⟩

/-- C9: nested buffers.  Adding an inner writer holding the text `s` as a
field of an outer writer (holding text `t` under key 0), the Reader over
the outer `finalize()` yields, via `load_recursive_reader(1)`, a Reader
whose own `load_entry` reproduces `s`; and `load_recursive_reader` on the
Text-tagged key 0 fails with `FieldTypeError(Text, MemBuffer)`. -/
theorem nested_buffer_roundtrip (t s : List Nat)
    (hsize : t.length + s.length + 20 < 2063518462) :
    ∃ r, MemBufferReader.new (buildWriter [(0, MemVal.text t),
        (1, MemVal.nested (buildWriter [(0, MemVal.text s)]))]).finalize =
      .ok r ∧
      (∃ r2, r.load_recursive_reader 1 = .ok r2 ∧ r2.load_str 0 = .ok s) ∧
      r.load_recursive_reader 0 =
        .err (.fieldTypeError MemBufferTypes.Text MemBufferTypes.MemBuffer) := by
  have hinner : (buildWriter [(0, MemVal.text s)]).data = s := by
    unfold buildWriter
    simp only [List.foldl_cons, List.foldl_nil]
    rw [add_entry_eq]
    simp [MemBufferWriter.new, MemVal.payloadBytes]
  have hinfin : (buildWriter [(0, MemVal.text s)]).finalize.length =
      20 + s.length := by
    unfold buildWriter
    simp only [List.foldl_cons, List.foldl_nil]
    rw [add_entry_eq]
    simp only [MemBufferWriter.finalize, MemBufferWriter.new]
    simp [mapInsert, serializeRecord, encodeI32, MemVal.payloadBytes]
    omega
  have hWF2 : WFWriter (buildWriter [(0, MemVal.text s)]) :=
    buildWriter_WF _ (by intro p hp; simp at hp; subst hp; trivial)
      (by intro p hp; simp at hp; subst hp; trivial)
      (by intro p hp; simp at hp; subst hp
          exact (by decide : isI32 (0 : Int)))
      (by rw [hinner]; omega)
  have houter : (buildWriter [(0, MemVal.text t),
      (1, MemVal.nested (buildWriter [(0, MemVal.text s)]))]).data =
      t ++ (buildWriter [(0, MemVal.text s)]).finalize := by
    unfold buildWriter
    simp only [List.foldl_cons, List.foldl_nil]
    rw [add_entry_eq, add_entry_eq]
    simp [MemBufferWriter.new, MemVal.payloadBytes]
  have houtlen : (buildWriter [(0, MemVal.text t),
      (1, MemVal.nested (buildWriter [(0, MemVal.text s)]))]).data.length =
      t.length + (20 + s.length) := by
    rw [houter]
    simp [hinfin]
  have hkeys : ∀ p ∈ [((0 : Int), MemVal.text t),
      ((1 : Int), MemVal.nested (buildWriter [(0, MemVal.text s)]))], isI32 p.1 := by
    intro p hp
    simp only [List.mem_cons, List.mem_singleton, List.not_mem_nil,
      or_false] at hp
    rcases hp with h | h
    · subst h; exact (by decide : isI32 (0 : Int))
    · subst h; exact (by decide : isI32 (1 : Int))
  have hsane : ∀ p ∈ [((0 : Int), MemVal.text t),
      ((1 : Int), MemVal.nested (buildWriter [(0, MemVal.text s)]))], ValSane p.2 := by
    intro p hp
    simp only [List.mem_cons, List.mem_singleton, List.not_mem_nil,
      or_false] at hp
    rcases hp with h | h <;> subst h <;> trivial
  have hns : ∀ p ∈ [((0 : Int), MemVal.text t),
      ((1 : Int), MemVal.nested (buildWriter [(0, MemVal.text s)]))],
      ValNoSentinel p.2 := by
    intro p hp
    simp only [List.mem_cons, List.mem_singleton, List.not_mem_nil,
      or_false] at hp
    rcases hp with h | h <;> subst h <;> trivial
  have hnested : ∀ p ∈ [((0 : Int), MemVal.text t),
      ((1 : Int), MemVal.nested (buildWriter [(0, MemVal.text s)]))],
      ValNestedWF p.2 := by
    intro p hp
    simp only [List.mem_cons, List.mem_singleton, List.not_mem_nil,
      or_false] at hp
    rcases hp with h | h
    · subst h; trivial
    · subst h; exact hWF2
  have hszW : (buildWriter [(0, MemVal.text t),
      (1, MemVal.nested (buildWriter [(0, MemVal.text s)]))]).data.length <
      2063518462 := by
    rw [houtlen]; omega
  have hWF := buildWriter_WF [(0, MemVal.text t),
    (1, MemVal.nested (buildWriter [(0, MemVal.text s)]))] hsane hns hkeys hszW
  have hsz2 : ([(0, MemVal.text t),
      (1, MemVal.nested (buildWriter [(0, MemVal.text s)]))].foldl
      (fun w p => w.add_entry p.1 p.2) MemBufferWriter.new).data.length <
      2147483648 := by
    have hlt : (buildWriter [(0, MemVal.text t),
        (1, MemVal.nested (buildWriter [(0, MemVal.text s)]))]).data.length <
        2147483648 := by omega
    exact hlt
  have hent := foldl_entries [(0, MemVal.text t),
      (1, MemVal.nested (buildWriter [(0, MemVal.text s)]))]
    MemBufferWriter.new hsane hnested (by simp) hsz2
  rcases hent (1, MemVal.nested (buildWriter [(0, MemVal.text s)]))
    (by simp) with ⟨ip1, hget1, hev1⟩
  rcases hent (0, MemVal.text t) (by simp) with ⟨ip0, hget0, hev0⟩
  refine ⟨⟨(buildWriter [(0, MemVal.text t),
      (1, MemVal.nested (buildWriter [(0, MemVal.text s)]))]).offsets,
    (buildWriter [(0, MemVal.text t),
      (1, MemVal.nested (buildWriter [(0, MemVal.text s)]))]).data⟩,
    new_finalize _ hWF, ?_, ?_⟩
  · refine ⟨⟨(buildWriter [(0, MemVal.text s)]).offsets,
      (buildWriter [(0, MemVal.text s)]).data⟩, ?_, ?_⟩
    · exact loadsBack_of_entry _ 1
        (MemVal.nested (buildWriter [(0, MemVal.text s)])) ip1 hget1 hev1
    · have hsz3 : ([(0, MemVal.text s)].foldl
          (fun w p => w.add_entry p.1 p.2) MemBufferWriter.new).data.length <
          2147483648 := by
        have hlt : (buildWriter [(0, MemVal.text s)]).data.length <
            2147483648 := by
          rw [hinner]; omega
        exact hlt
      rcases foldl_entries [(0, MemVal.text s)] MemBufferWriter.new
        (by intro p hp; simp at hp; subst hp; trivial)
        (by intro p hp; simp at hp; subst hp; trivial)
        (by simp) hsz3 (0, MemVal.text s) (by simp) with ⟨ip2, hget2, hev2⟩
      exact loadsBack_of_entry _ 0 (MemVal.text s) ip2 hget2 hev2
  · have htag0 := EntryVal_tag ip0 _ _ hev0
    have hres := type_mismatch_both_tags readerFromMemBuffer
      ⟨(buildWriter [(0, MemVal.text t),
          (1, MemVal.nested (buildWriter [(0, MemVal.text s)]))]).offsets,
        (buildWriter [(0, MemVal.text t),
          (1, MemVal.nested (buildWriter [(0, MemVal.text s)]))]).data⟩
      0 MemBufferTypes.MemBuffer ip0 hget0
      (by rw [htag0]
          simp [MemVal.tag, MemBufferTypes.Text, MemBufferTypes.MemBuffer])
    rw [htag0] at hres
    exact hres

/-- C9 (witness): inner text `"X"`, outer text `"H"`. -/
theorem nested_buffer_roundtrip_witness :
    ∃ r, MemBufferReader.new (buildWriter [(0, MemVal.text [72]),
        (1, MemVal.nested (buildWriter [(0, MemVal.text [88])]))]).finalize =
      .ok r ∧
      (∃ r2, r.load_recursive_reader 1 = .ok r2 ∧ r2.load_str 0 = .ok [88]) ∧
      r.load_recursive_reader 0 =
        .err (.fieldTypeError MemBufferTypes.Text MemBufferTypes.MemBuffer) :=
  nested_buffer_roundtrip [72] [88] (by norm_num)

/-- C10: a descriptor tagged `VectorU64` whose length field is not a
multiple of 8, and whose truncated word range lies within the payload,
still loads as `ok`, returning exactly `length / 8` (rounded down) words
and silently ignoring the trailing bytes. -/
theorem u64_length_truncation (r : MemBufferReader) (key : Int)
    (ip : InternPosition) (hget : mapGet r.offsets key = some ip)
    (htag : ip.variable_type = MemBufferTypes.VectorU64)
    (hoff : 0 ≤ ip.pos.offset) (hoffsmall : ip.pos.offset < 2147483648)
    (hlen : 0 ≤ ip.pos.length) (hlensmall : ip.pos.length < 2147483648)
    (hwords : ip.pos.offset.toNat + 8 * (ip.pos.length.toNat / 8) ≤
      r.data.length)
    (_hnotmul : ip.pos.length % 8 ≠ 0) :
    ∃ ws, r.load_u64vec key = .ok ws ∧
      (ws.length : Int) = ip.pos.length / 8 := by
  simp only [MemBufferReader.load_u64vec, MemBufferReader.intern_load_entry,
    hget]
  rw [if_neg (by rw [htag]; simp)]
  have ha : usizeCast ip.pos.offset = ip.pos.offset.toNat :=
    usizeCast_small _ hoff hoffsmall
  have hshr : shr3 ip.pos.length = ip.pos.length / 8 := by
    unfold shr3
    rw [if_pos hlen]
  have hn : usizeCast (shr3 ip.pos.length) = (ip.pos.length / 8).toNat := by
    rw [hshr]
    unfold usizeCast
    omega
  simp only [u64FromMemBuffer, ha, hn]
  rw [if_pos (by omega), if_pos (by omega)]
  refine ⟨_, rfl, ?_⟩
  rw [readWords_length]
  omega

/-- C10 (witness): a handcrafted U64Vector descriptor with length 9 over a
9-byte payload loads `ok` with exactly one word. -/
theorem u64_length_truncation_witness :
    ∃ ws, MemBufferReader.load_u64vec
        ⟨[(5, ⟨⟨0, 9⟩, 3⟩)], [1, 0, 0, 0, 0, 0, 0, 0, 7]⟩ 5 = .ok ws ∧
      (ws.length : Int) = (9 : Int) / 8 :=
  u64_length_truncation ⟨[(5, ⟨⟨0, 9⟩, 3⟩)], [1, 0, 0, 0, 0, 0, 0, 0, 7]⟩ 5
    ⟨⟨0, 9⟩, 3⟩ (by decide) (by decide) (by decide) (by decide) (by decide)
    (by decide) (by decide) (by decide)
